import Mathlib

/-!
Verification of the orchestration-level logic of the icemelon9/notebooks
repository: the best-configuration selector over a trial log, the declared
matmul search space, the matrix-multiplication schedule variants, the hybrid
script kernel with its two execution modes, and the latency-calibration and
reporting code of the BERT benchmarks.  Floating-point quantities (costs,
latencies, tensor elements) are modelled as exact rationals.
-/

/-- A trial result as the data model records it: the sampled configuration
(identified by a number), the measured cost, and the error indicator.  The
log is an append-only list, earlier entries first (earlier timestamps). -/
structure TrialResult where
  config : Nat
  cost : ℚ
  error : Bool
deriving DecidableEq

/-- One step of the selector's linear scan: an entry with a recorded error is
skipped; an error-free entry replaces the running best only when its cost is
strictly below the running best's cost, so the earliest entry of least cost
is kept. -/
def selStep (best : Option TrialResult) (r : TrialResult) : Option TrialResult :=
  if r.error then best
  else
    match best with
    | none => some r
    | some b => if r.cost < b.cost then some r else some b

/-- Modelled from the spec: the Best-Configuration Selector (spec section 4.1),
the behaviour of the external `autotvm.apply_history_best` call the notebooks
make (src/tvm/03_write_autotvm_template.ipynb line 240, src/unnamed/part_000
line 127): a single linear scan over the append-only trial log returning the
entry of minimal cost among entries with no recorded error, ties broken by
the earliest recorded entry, and `none` (NoValidTrial) when every entry
recorded an error. -/
def applyHistoryBest (log : List TrialResult) : Option TrialResult :=
  log.foldl selStep none

/-- The selector's scan once a first error-free entry is the running best. -/
def bestOf (b : TrialResult) (log : List TrialResult) : TrialResult :=
  log.foldl (fun best r => if r.error then best else if r.cost < best.cost then r else best) b

theorem foldl_selStep_some (l : List TrialResult) :
    ∀ b : TrialResult, l.foldl selStep (some b) = some (bestOf b l) := by
  induction l with
  | nil => intro b; rfl
  | cons r t ih =>
    intro b
    cases hr : r.error with
    | true => simp [List.foldl_cons, selStep, hr, bestOf, ih]
    | false =>
      by_cases hc : r.cost < b.cost
      · simp [List.foldl_cons, selStep, hr, hc, bestOf, ih]
      · simp [List.foldl_cons, selStep, hr, hc, bestOf, ih]

theorem applyHistoryBest_cons (r : TrialResult) (t : List TrialResult) :
    applyHistoryBest (r :: t) =
      if r.error then applyHistoryBest t else some (bestOf r t) := by
  cases hr : r.error with
  | true => simp [applyHistoryBest, List.foldl_cons, selStep, hr]
  | false => simp [applyHistoryBest, List.foldl_cons, selStep, hr, foldl_selStep_some]

/-- The scan keeps the running best when nothing later has strictly
smaller cost. -/
theorem bestOf_eq_self (l : List TrialResult) :
    ∀ b : TrialResult, (∀ r ∈ l, r.error = false → b.cost ≤ r.cost) → bestOf b l = b := by
  induction l with
  | nil => intro b _; rfl
  | cons r t ih =>
    intro b h
    cases hr : r.error with
    | true =>
      simp only [bestOf, List.foldl_cons, hr, if_true]
      exact ih b fun s hs hse => h s (List.mem_cons_of_mem r hs) hse
    | false =>
      have hb : b.cost ≤ r.cost := h r (List.mem_cons_self r t) hr
      have hc : ¬ r.cost < b.cost := not_lt.mpr hb
      simp only [bestOf, List.foldl_cons, hr, Bool.false_eq_true, if_false, hc]
      exact ih b fun s hs hse => h s (List.mem_cons_of_mem r hs) hse

/-- The scan started at an error-free best ends at an error-free best. -/
theorem bestOf_error_eq_false (l : List TrialResult) :
    ∀ b : TrialResult, b.error = false → (bestOf b l).error = false := by
  induction l with
  | nil => intro b hb; exact hb
  | cons r t ih =>
    intro b hb
    cases hr : r.error with
    | true =>
      simp only [bestOf, List.foldl_cons, hr, if_true]
      exact ih b hb
    | false =>
      simp only [bestOf, List.foldl_cons, hr, Bool.false_eq_true, if_false]
      by_cases hc : r.cost < b.cost
      · simp only [hc, if_true]
        exact ih r hr
      · simp only [hc, if_false]
        exact ih b hb

/-- The scan finds an error-free entry that strictly beats the running best
and every earlier error-free entry, and is beaten by no later one. -/
theorem bestOf_append (t l2 : List TrialResult) (e : TrialResult) :
    ∀ b : TrialResult, e.error = false → e.cost < b.cost →
      (∀ r ∈ t, r.error = false → e.cost < r.cost) →
      (∀ r ∈ l2, r.error = false → e.cost ≤ r.cost) →
      bestOf b (t ++ e :: l2) = e := by
  induction t with
  | nil =>
    intro b he hb _ h2
    simp only [List.nil_append, bestOf, List.foldl_cons, he, Bool.false_eq_true, if_false,
      hb, if_true]
    exact bestOf_eq_self l2 e h2
  | cons r t ih =>
    intro b he hb h1 h2
    cases hr : r.error with
    | true =>
      simp only [List.cons_append, bestOf, List.foldl_cons, hr, if_true]
      exact ih b he hb (fun s hs hse => h1 s (List.mem_cons_of_mem r hs) hse) h2
    | false =>
      have her : e.cost < r.cost := h1 r (List.mem_cons_self r t) hr
      simp only [List.cons_append, bestOf, List.foldl_cons, hr, Bool.false_eq_true, if_false]
      by_cases hc : r.cost < b.cost
      · simp only [hc, if_true]
        exact ih r he her (fun s hs hse => h1 s (List.mem_cons_of_mem r hs) hse) h2
      · simp only [hc, if_false]
        exact ih b he hb (fun s hs hse => h1 s (List.mem_cons_of_mem r hs) hse) h2

/-- The selector returns the error-free entry that strictly beats every
earlier error-free entry and is beaten by no later one. -/
theorem applyHistoryBest_append (l1 l2 : List TrialResult) (e : TrialResult)
    (he : e.error = false)
    (h1 : ∀ r ∈ l1, r.error = false → e.cost < r.cost)
    (h2 : ∀ r ∈ l2, r.error = false → e.cost ≤ r.cost) :
    applyHistoryBest (l1 ++ e :: l2) = some e := by
  induction l1 with
  | nil =>
    rw [List.nil_append, applyHistoryBest_cons]
    simp only [he, Bool.false_eq_true, if_false]
    rw [bestOf_eq_self l2 e h2]
  | cons r t ih =>
    cases hr : r.error with
    | true =>
      rw [List.cons_append, applyHistoryBest_cons]
      simp only [hr, if_true]
      exact ih fun s hs hse => h1 s (List.mem_cons_of_mem r hs) hse
    | false =>
      have her : e.cost < r.cost := h1 r (List.mem_cons_self r t) hr
      rw [List.cons_append, applyHistoryBest_cons]
      simp only [hr, Bool.false_eq_true, if_false]
      rw [bestOf_append t l2 e r he her
        (fun s hs hse => h1 s (List.mem_cons_of_mem r hs) hse) h2]

/-- The selector never returns an entry that recorded an error. -/
theorem applyHistoryBest_error_eq_false (l : List TrialResult) (b : TrialResult)
    (h : applyHistoryBest l = some b) : b.error = false := by
  induction l generalizing b with
  | nil => simp [applyHistoryBest] at h
  | cons r t ih =>
    rw [applyHistoryBest_cons] at h
    cases hr : r.error with
    | true =>
      simp only [hr, if_true] at h
      exact ih b h
    | false =>
      simp only [hr, Bool.false_eq_true, if_false, Option.some.injEq] at h
      rw [← h]
      exact bestOf_error_eq_false t r hr

/-- A member of a list splits it at its first occurrence. -/
theorem exists_first_occurrence {α : Type} [DecidableEq α] (a : α) (l : List α)
    (h : a ∈ l) : ∃ s t, l = s ++ a :: t ∧ a ∉ s := by
  induction l with
  | nil => cases h
  | cons x xs ih =>
    by_cases hx : a = x
    · exact ⟨[], xs, by rw [hx]; rfl, List.not_mem_nil a⟩
    · have hmem : a ∈ xs := by
        cases List.mem_cons.mp h with
        | inl h0 => exact absurd h0 hx
        | inr h0 => exact h0
      obtain ⟨s, t, hl, hns⟩ := ih hmem
      exact ⟨x :: s, t, by rw [hl]; rfl, by
        intro hc
        cases List.mem_cons.mp hc with
        | inl h0 => exact hx h0
        | inr h0 => exact hns h0⟩

/-- C1: for every trial log holding an error-free entry whose cost is strictly
minimal among the error-free entries, the Best-Configuration Selector returns
that entry (hence its configuration), and on no log whatsoever does the
selector return an entry that recorded an error. -/
theorem selector_returns_strict_min (log : List TrialResult) (e : TrialResult)
    (hmem : e ∈ log) (he : e.error = false)
    (hmin : ∀ r ∈ log, r.error = false → r = e ∨ e.cost < r.cost) :
    applyHistoryBest log = some e ∧
      ∀ (l : List TrialResult) (b : TrialResult),
        applyHistoryBest l = some b → b.error = false := by
  refine ⟨?_, applyHistoryBest_error_eq_false⟩
  obtain ⟨s, t, hl, hns⟩ := exists_first_occurrence e log hmem
  subst hl
  refine applyHistoryBest_append s t e he ?_ ?_
  · intro r hr hre
    cases hmin r (List.mem_append_left _ hr) hre with
    | inl h => exact absurd (h ▸ hr) hns
    | inr h => exact h
  · intro r hr hre
    cases hmin r (List.mem_append_right _ (List.mem_cons_of_mem e hr)) hre with
    | inl h => exact le_of_eq (by rw [h])
    | inr h => exact le_of_lt h

/-- C1 witness: the selector applied to the concrete log
[(cfg 0, cost 10, ok), (cfg 1, cost 3, ok), (cfg 2, cost 7, error)]. -/
theorem selector_returns_strict_min_spot :
    applyHistoryBest [⟨0, 10, false⟩, ⟨1, 3, false⟩, ⟨2, 7, true⟩] = some ⟨1, 3, false⟩ ∧
      ∀ (l : List TrialResult) (b : TrialResult),
        applyHistoryBest l = some b → b.error = false :=
  selector_returns_strict_min [⟨0, 10, false⟩, ⟨1, 3, false⟩, ⟨2, 7, true⟩] ⟨1, 3, false⟩
    (by decide) (by decide) (by decide)

/-- C2: the selector signals NoValidTrial (returns none) exactly on the logs
in which every entry recorded an error. -/
theorem selector_none_iff_all_error (log : List TrialResult) :
    applyHistoryBest log = none ↔ ∀ r ∈ log, r.error = true := by
  induction log with
  | nil => simp [applyHistoryBest]
  | cons r t ih =>
    rw [applyHistoryBest_cons]
    cases hr : r.error with
    | true =>
      simp only [if_true, ih]
      constructor
      · intro h s hs
        cases List.mem_cons.mp hs with
        | inl h0 => rw [h0]; exact hr
        | inr h0 => exact h s h0
      · intro h s hs
        exact h s (List.mem_cons_of_mem r hs)
    | false =>
      simp only [Bool.false_eq_true, if_false]
      constructor
      · intro h; cases h
      · intro h
        exact absurd (h r (List.mem_cons_self r t)) (by simp [hr])

/-- C3: when two or more error-free entries share the minimal cost, the
selector returns the one appended to the log first: the log is
l1 ++ e :: l2 where e is error-free, of minimal cost, strictly cheaper than
every error-free entry appended before it, and some later error-free entry
ties its cost. -/
theorem selector_tie_earliest (l1 l2 : List TrialResult) (e : TrialResult)
    (he : e.error = false)
    (hmin : ∀ r ∈ l1 ++ e :: l2, r.error = false → e.cost ≤ r.cost)
    (hfirst : ∀ r ∈ l1, r.error = false → e.cost < r.cost)
    (_htie : ∃ r ∈ l2, r.error = false ∧ r.cost = e.cost) :
    applyHistoryBest (l1 ++ e :: l2) = some e := by
  refine applyHistoryBest_append l1 l2 e he hfirst ?_
  intro r hr hre
  exact hmin r (List.mem_append_right _ (List.mem_cons_of_mem e hr)) hre

/-- C3 witness: a log with a cost-5 tie between the second and third entries;
the second (appended first) is returned. -/
theorem selector_tie_earliest_spot :
    applyHistoryBest ([⟨0, 10, false⟩] ++ ⟨1, 5, false⟩ :: [⟨2, 5, false⟩]) =
      some ⟨1, 5, false⟩ :=
  selector_tie_earliest [⟨0, 10, false⟩] [⟨2, 5, false⟩] ⟨1, 5, false⟩
    (by decide) (by decide) (by decide) ⟨⟨2, 5, false⟩, by decide⟩

/-- C4: on the trial log [(cfg A, cost 10, ok), (cfg B, cost 5, ok),
(cfg C, cost 5, error)] (A, B, C numbered 0, 1, 2, appended in that order)
the selector returns cfg B: cfg C is excluded despite its equal cost because
it recorded an error. -/
theorem selector_scenario_returns_B :
    (applyHistoryBest [⟨0, 10, false⟩, ⟨1, 5, false⟩, ⟨2, 5, true⟩]).map
      TrialResult.config = some 1 := by
  decide

/-- The matrix-multiplication compute both notebooks declare
(src/tvm/02_optimize_matrix_multiplication.ipynb lines 65-71 and matmul_v1 in
src/tvm/03_write_autotvm_template.ipynb lines 104-110):
C[y, x] = te.sum(A[y, k] * B[k, x], axis=k) over the reduction axis
k in [0, K).  Float32 elements are modelled as exact rationals. -/
def matmulC (A B : ℕ → ℕ → ℚ) (K : ℕ) (y x : ℕ) : ℚ :=
  ∑ k ∈ Finset.range K, A y k * B k x

/-- The value the baseline lowered loop nest leaves in C[y, x] (the printed
IR of the default schedule, 02 notebook cell 3): C starts at 0f and the k
loop accumulates C = C + A[y, k] * B[k, x]. -/
def accumK (A B : ℕ → ℕ → ℚ) (K : ℕ) (y x : ℕ) : ℚ :=
  (List.range K).foldl (fun c k => c + A y k * B k x) 0

/-- The value left in C[y, x] by every scheduled variant that splits the
reduction axis with inner factor tk (blocked, vectorized, loop-permuted and
parallelized schedules with tk = 4, and matmul_v1 under any tile_k
configuration): the accumulation runs over k.outer in [0, K/tk) and k.inner
in [0, tk) with k = k.outer * tk + k.inner, as in the printed IR of the 02
notebook.  Splitting and reordering the spatial axes y and x, vectorizing
x.inner and parallelizing y.outer only change which output element is
visited when, never the sequence of additions an element receives, so they
leave this per-element value unchanged. -/
def accumTiledK (A B : ℕ → ℕ → ℚ) (K tk : ℕ) (y x : ℕ) : ℚ :=
  (List.range (K / tk)).foldl
    (fun c ko =>
      (List.range tk).foldl (fun c ki => c + A y (ko * tk + ki) * B (ko * tk + ki) x) c) 0

/-- An accumulation loop starting from c0 adds the sum of its terms. -/
theorem foldl_add_range (f : ℕ → ℚ) (n : ℕ) :
    ∀ c0 : ℚ, (List.range n).foldl (fun c k => c + f k) c0 = c0 + ∑ k ∈ Finset.range n, f k := by
  induction n with
  | zero => intro c0; simp
  | succ n ih =>
    intro c0
    rw [List.range_succ, List.foldl_append, ih, Finset.sum_range_succ]
    simp [add_assoc]

/-- Reindexing a sum over [0, a*b) by the split k = i * b + j. -/
theorem sum_range_mul_split (a b : ℕ) (f : ℕ → ℚ) :
    ∑ k ∈ Finset.range (a * b), f k =
      ∑ i ∈ Finset.range a, ∑ j ∈ Finset.range b, f (i * b + j) := by
  induction a with
  | zero => simp
  | succ a ih =>
    rw [Nat.succ_mul, Finset.sum_range_add, ih, Finset.sum_range_succ]

/-- C5: the baseline loop nest and every reduction-split variant (the
blocked, vectorized, loop-permuted and parallelized schedules and the
matmul_v1 template under any configuration, whose tile_k inner factor tk
always divides K) leave in C[y, x] exactly the declared computation
sum over k of A[y, k] * B[k, x].  Over the exact rationals that model the
float entries the agreement is equality, hence in particular within the
notebooks' relative tolerance 1e-2. -/
theorem matmul_variants_compute_dot (A B : ℕ → ℕ → ℚ) (K tk : ℕ)
    (hdvd : tk ∣ K) (y x : ℕ) :
    accumK A B K y x = matmulC A B K y x ∧
      accumTiledK A B K tk y x = matmulC A B K y x := by
  constructor
  · unfold accumK matmulC
    rw [foldl_add_range, zero_add]
  · have hk : K = K / tk * tk := (Nat.div_mul_cancel hdvd).symm
    unfold accumTiledK matmulC
    simp only [foldl_add_range, zero_add]
    conv_rhs => rw [hk, sum_range_mul_split (K / tk) tk (fun k => A y k * B k x)]

/-- C5 witness: 4x4 matrices A[i, j] = i + j and B[i, j] = i * j with the
reduction axis split by factor 2. -/
theorem matmul_variants_compute_dot_spot :
    accumK (fun i j => ((i + j : ℕ) : ℚ)) (fun i j => ((i * j : ℕ) : ℚ)) 4 1 2 =
        matmulC (fun i j => ((i + j : ℕ) : ℚ)) (fun i j => ((i * j : ℕ) : ℚ)) 4 1 2 ∧
      accumTiledK (fun i j => ((i + j : ℕ) : ℚ)) (fun i j => ((i * j : ℕ) : ℚ)) 4 2 1 2 =
        matmulC (fun i j => ((i + j : ℕ) : ℚ)) (fun i j => ((i * j : ℕ) : ℚ)) 4 1 2 :=
  matmul_variants_compute_dot _ _ 4 2 (by decide) 1 2

set_option maxRecDepth 10000

/-- Modelled from the spec: the domain a two-way `cfg.define_split` over an
axis of extent n declares (Search-Space Declaration stage; the config-space
printout at src/tvm/03_write_autotvm_template.ipynb lines 154-158 records
policy=factors, product=1024, num_outputs=2): one candidate per divisor of
n, identified here by the inner factor (the outer factor is n divided by
it). -/
def splitFactors (n : ℕ) : List ℕ :=
  (List.range (n + 1)).filter (fun f => f != 0 && n % f == 0)

/-- The tile_y candidates of matmul_v1 at M = 1024 (03 notebook line 121). -/
def tileYCandidates : List ℕ := splitFactors 1024

/-- The tile_x candidates of matmul_v1 at N = 1024: the declared filter keeps
only splits whose inner factor x.size[1] lies in [1, 2, 4, 8, 16]
(03 notebook line 122). -/
def tileXCandidates : List ℕ :=
  (splitFactors 1024).filter (fun f => [1, 2, 4, 8, 16].contains f)

/-- The tile_k candidates of matmul_v1 at K = 1024 (03 notebook line 123). -/
def tileKCandidates : List ℕ := splitFactors 1024

/-- The whole declared search space of matmul_v1 at M = K = N = 1024: one
tile_y, tile_x and tile_k choice each.  As a Lean value the list is
immutable, matching the spec's read-only-after-declaration contract. -/
def matmulV1ConfigSpace : List (ℕ × ℕ × ℕ) :=
  tileYCandidates.flatMap fun ty =>
    tileXCandidates.flatMap fun tx =>
      tileKCandidates.map fun tk => (ty, tx, tk)

/-- C6: the declared search space of matmul_v1 at M = K = N = 1024 has
exactly 605 configurations: 11 tile_y choices (one per divisor of 1024),
5 tile_x choices (the filter keeps inner factors 1, 2, 4, 8, 16), 11 tile_k
choices, and 11 * 5 * 11 = 605. -/
theorem matmulV1_config_space_size :
    tileYCandidates.length = 11 ∧ tileXCandidates.length = 5 ∧
      tileKCandidates.length = 11 ∧ matmulV1ConfigSpace.length = 605 ∧
      matmulV1ConfigSpace.length =
        tileYCandidates.length * tileXCandidates.length * tileKCandidates.length := by
  refine ⟨by decide, by decide, by decide, by decide, by decide⟩

/-- The calibration threshold min_repeat_ms = 2000 of the BERT benchmarks
(src/bert/mxnet_bert_cpu.ipynb line 90, src/unnamed/part_000 line 90),
in milliseconds. -/
def minRepeatMs : ℚ := 2000

/-- The number update of the latency-calibration loop
(src/bert/mxnet_bert_cpu.ipynb line 100):
number = int(max(min_repeat_ms / (lat / number) + 1, number * 1.618)).
Python's int() truncates toward zero; every quantity reaching it here is
nonnegative, so it is the floor. -/
def nextNumber (lat : ℚ) (number : ℕ) : ℕ :=
  (⌊max (minRepeatMs / (lat / (number : ℚ)) + 1) ((number : ℚ) * 1.618)⌋).toNat

/-- The while-True calibration loop (src/bert/mxnet_bert_cpu.ipynb lines
92-100): time a batch of `number` runs, stop when its elapsed time lat
reaches min_repeat_ms, otherwise update `number` and retry.  latOf models
the wall clock: latOf n is the elapsed milliseconds of a batch of n runs.
The fuel argument bounds the recursion; none means the loop has not exited
within the given fuel. -/
def calibrate (latOf : ℕ → ℚ) : ℕ → ℕ → Option (ℚ × ℕ)
  | 0, _ => none
  | fuel + 1, number =>
    let lat := latOf number
    if minRepeatMs ≤ lat then some (lat, number)
    else calibrate latOf fuel (nextNumber lat number)

/-- The figure the mxnet benchmark prints (src/bert/mxnet_bert_cpu.ipynb
line 101): lat / number from the loop's final iteration. -/
def mxnetReport (latOf : ℕ → ℚ) (fuel n0 : ℕ) : Option ℚ :=
  (calibrate latOf fuel n0).map fun r => r.1 / (r.2 : ℚ)

/-- The figure the TVM benchmark prints (src/bert/mxnet_bert_cpu.ipynb
lines 183-186): np.mean of the time_evaluator's per-repeat results after
conversion to milliseconds.  np.mean is external and modelled from the spec
as the arithmetic mean, sum divided by count. -/
def tvmReport (results : List ℚ) : ℚ :=
  (results.map (fun r => r * 1000)).sum / ((results.map (fun r => r * 1000)).length : ℚ)

/-- A calibration run that exits does so on a batch whose elapsed time is
the wall-clock time of its own number of runs, at or above the threshold. -/
theorem calibrate_final (latOf : ℕ → ℚ) (fuel : ℕ) :
    ∀ n0 lat m, calibrate latOf fuel n0 = some (lat, m) →
      lat = latOf m ∧ minRepeatMs ≤ lat := by
  induction fuel with
  | zero => intro n0 lat m h; simp [calibrate] at h
  | succ fuel ih =>
    intro n0 lat m h
    simp only [calibrate] at h
    by_cases h0 : minRepeatMs ≤ latOf n0
    · rw [if_pos h0] at h
      simp only [Option.some.injEq, Prod.mk.injEq] at h
      obtain ⟨hl, hm⟩ := h
      subst hm
      exact ⟨hl.symm, hl ▸ h0⟩
    · rw [if_neg h0] at h
      exact ih _ _ _ h

/-- C7: the reported latency figures are mean latency per run.  When the
mxnet calibration loop exits with final batch time lat over m runs, lat is
the elapsed wall-clock time of that final batch and the printed value is
lat divided by m; and the TVM benchmark prints the arithmetic mean of the
time_evaluator's per-repeat results (in milliseconds: 1000 times the mean
of the results in seconds). -/
theorem report_is_mean_latency (latOf : ℕ → ℚ) (fuel n0 : ℕ) (lat : ℚ) (m : ℕ)
    (h : calibrate latOf fuel n0 = some (lat, m)) :
    lat = latOf m ∧ minRepeatMs ≤ lat ∧
      mxnetReport latOf fuel n0 = some (latOf m / (m : ℚ)) ∧
      ∀ results : List ℚ,
        tvmReport results = 1000 * (results.sum / (results.length : ℚ)) := by
  obtain ⟨h1, h2⟩ := calibrate_final latOf fuel n0 lat m h
  refine ⟨h1, h2, ?_, ?_⟩
  · simp only [mxnetReport, h, Option.map_some']
    rw [h1]
  · intro results
    rw [tvmReport]
    have hs : (results.map (fun r => r * 1000)).sum = results.sum * 1000 := by
      simpa using List.sum_map_mul_right results id (1000 : ℚ)
    rw [hs, List.length_map]
    ring

/-- C7 witness: a model clock of 1 ms per run; starting from number = 20 the
loop recalibrates to number = 2001 and exits with lat = 2001 ms. -/
theorem report_is_mean_latency_spot :
    (2001 : ℚ) = ((2001 : ℕ) : ℚ) ∧ minRepeatMs ≤ (2001 : ℚ) ∧
      mxnetReport (fun k => (k : ℚ)) 2 20 = some (((2001 : ℕ) : ℚ) / ((2001 : ℕ) : ℚ)) ∧
      ∀ results : List ℚ,
        tvmReport results = 1000 * (results.sum / (results.length : ℚ)) :=
  report_is_mean_latency (fun k => (k : ℚ)) 2 20 2001 2001 (by
    have h1 : nextNumber 20 20 = 2001 := by
      norm_num [nextNumber, minRepeatMs, Int.floor_eq_iff]
      rfl
    norm_num [calibrate, h1, minRepeatMs])

/-- C10 counterexample: at a per-run latency of 64 ms and number = 20 the
batch lasts 1280 ms, below min_repeat_ms, so the loop updates number; the
update returns int(max(2000/64 + 1, 20 * 1.618)) = int(32.36) = 32, which
is less than 1.618 * 20 = 32.36: after int() truncation the update does not
multiply number by at least 1.618. -/
theorem calib_growth_factor_cex :
    (20 : ℚ) * 64 < minRepeatMs ∧
      ((nextNumber ((20 : ℚ) * 64) 20 : ℕ) : ℚ) < 1.618 * 20 := by
  have h1 : nextNumber ((20 : ℚ) * 64) 20 = 32 := by
    norm_num [nextNumber, minRepeatMs, Int.floor_eq_iff]
    rfl
  rw [h1]
  norm_num [minRepeatMs]

/-- The update at a constant per-run latency t: the measured batch time is
number * t, so lat / number = t. -/
theorem nextNumber_const_rate (t : ℚ) (n : ℕ) (hn : 1 ≤ n) :
    nextNumber ((n : ℚ) * t) n = (⌊max (minRepeatMs / t + 1) ((n : ℚ) * 1.618)⌋).toNat := by
  have hne : ((n : ℚ)) ≠ 0 := Nat.cast_ne_zero.mpr (by omega)
  rw [nextNumber, mul_comm (n : ℚ) t, mul_div_assoc, div_self hne, mul_one]

/-- C10 (amended): for every strictly positive per-run model latency t the
calibration loop terminates, within fuel 2: whenever a batch falls short of
min_repeat_ms, the updated number is at least min_repeat_ms / t, so the very
next batch reaches the threshold and the loop exits; and each update
strictly increases number (from 20 on).  The factor-1.618 growth claimed of
the update holds only before int() truncation (see the counterexample). -/
theorem calib_terminates (t : ℚ) (ht : 0 < t) (n0 : ℕ) (hn : 1 ≤ n0) :
    (∃ r, calibrate (fun k => (k : ℚ) * t) 2 n0 = some r) ∧
      ∀ n : ℕ, 20 ≤ n → (n : ℚ) * t < minRepeatMs →
        n < nextNumber ((n : ℚ) * t) n := by
  have htne : t ≠ 0 := ht.ne'
  constructor
  · by_cases h0 : minRepeatMs ≤ (n0 : ℚ) * t
    · exact ⟨((n0 : ℚ) * t, n0), by simp [calibrate, h0]⟩
    · set n1 := nextNumber ((n0 : ℚ) * t) n0 with hn1
      have hz : n1 = (⌊max (minRepeatMs / t + 1) ((n0 : ℚ) * 1.618)⌋).toNat :=
        nextNumber_const_rate t n0 hn
      have hfl : (⌊minRepeatMs / t + 1⌋ : ℚ) > minRepeatMs / t := by
        have := Int.sub_one_lt_floor (minRepeatMs / t + 1)
        linarith
      have hmono : ⌊minRepeatMs / t + 1⌋ ≤ ⌊max (minRepeatMs / t + 1) ((n0 : ℚ) * 1.618)⌋ :=
        Int.floor_le_floor (le_max_left _ _)
      have hpos : (0 : ℤ) ≤ ⌊max (minRepeatMs / t + 1) ((n0 : ℚ) * 1.618)⌋ := by
        have h1 : (0 : ℚ) ≤ minRepeatMs / t := by
          have : (0 : ℚ) ≤ minRepeatMs := by norm_num [minRepeatMs]
          positivity
        have h2 : (0 : ℤ) ≤ ⌊minRepeatMs / t + 1⌋ := by
          rw [Int.le_floor]
          push_cast
          linarith
        exact le_trans h2 hmono
      have hcast : ((n1 : ℚ)) > minRepeatMs / t := by
        rw [hz]
        have hq : ((⌊max (minRepeatMs / t + 1) ((n0 : ℚ) * 1.618)⌋.toNat : ℤ) : ℚ)
            = ((⌊max (minRepeatMs / t + 1) ((n0 : ℚ) * 1.618)⌋ : ℤ) : ℚ) := by
          rw [Int.toNat_of_nonneg hpos]
        push_cast at hq ⊢
        rw [hq]
        calc minRepeatMs / t < (⌊minRepeatMs / t + 1⌋ : ℚ) := hfl
          _ ≤ _ := by exact_mod_cast hmono
      have hdone : minRepeatMs ≤ (n1 : ℚ) * t := by
        have := (div_lt_iff₀ ht).mp hcast
        linarith
      refine ⟨((n1 : ℚ) * t, n1), ?_⟩
      show calibrate (fun k => (k : ℚ) * t) 2 n0 = some ((n1 : ℚ) * t, n1)
      simp only [calibrate]
      rw [if_neg h0, if_pos hdone]
  · intro n hn20 _
    have hn1 : 1 ≤ n := le_trans (by norm_num) hn20
    rw [nextNumber_const_rate t n hn1]
    have hfl : ((n : ℤ) + 1) ≤ ⌊(n : ℚ) * 1.618⌋ := by
      rw [Int.le_floor]
      have h20 : ((n : ℚ)) ≥ 20 := by exact_mod_cast hn20
      push_cast
      nlinarith
    have hle : ((n : ℤ) + 1) ≤ ⌊max (minRepeatMs / t + 1) ((n : ℚ) * 1.618)⌋ :=
      le_trans hfl (Int.floor_le_floor (le_max_right _ _))
    have h2 : (n : ℤ) < ⌊max (minRepeatMs / t + 1) ((n : ℚ) * 1.618)⌋ := by linarith
    exact Int.lt_toNat.mpr h2

/-- C10 witness: per-run latency 64 ms starting from number = 20. -/
theorem calib_terminates_spot :
    (∃ r, calibrate (fun k => (k : ℚ) * 64) 2 20 = some r) ∧
      ∀ n : ℕ, 20 ≤ n → (n : ℚ) * 64 < minRepeatMs →
        n < nextNumber ((n : ℚ) * 64) n :=
  calib_terminates 64 (by norm_num) 20 (by norm_num)

/-- The hybrid-script function foo
(src/tvm/tvm_misc_op_hyrid_script.ipynb, cell 12):
c = output_tensor((n,)); for i in range(n):
c[i] = a[i] + b[i] if a[i] > 100 else a[i] - b[i]; return c.
This is also the semantics of its software-emulation mode on numpy arrays.
Float32 elements are modelled as exact rationals. -/
def foo (n : ℕ) (a b : ℕ → ℚ) : List ℚ :=
  (List.range n).map fun i => if a i > 100 then a i + b i else a i - b i

/-- Evaluation of foo on the notebook's test input a = b = [0, ..., 127]:
101 zeros then the even numbers 202, 204, ..., 254 (the notebook's
reference np.array([0] * 101 + list(range(202, 256, 2)))). -/
theorem foo_reference_eval :
    foo 128 (fun i => (i : ℚ)) (fun i => (i : ℚ)) =
      List.replicate 101 0 ++
        (List.range 27).map (fun j : ℕ => (202 : ℚ) + 2 * (j : ℚ)) := by
  rw [foo, show (128 : ℕ) = 101 + 27 from rfl, List.range_add, List.map_append, List.map_map]
  congr 1
  · rw [List.eq_replicate_iff]
    refine ⟨by simp, ?_⟩
    intro q hq
    obtain ⟨i, hi, rfl⟩ := List.mem_map.mp hq
    have hi101 : i < 101 := List.mem_range.mp hi
    have hc : ¬ ((i : ℚ) > 100) := by
      rw [not_lt]
      exact_mod_cast Nat.le_of_lt_succ hi101
    rw [if_neg hc, sub_self]
  · apply List.map_congr_left
    intro j hj
    have hc : (((101 + j : ℕ) : ℚ) > 100) := by
      have h1 : (101 : ℕ) ≤ 101 + j := Nat.le_add_right _ _
      calc (100 : ℚ) < 101 := by norm_num
        _ ≤ ((101 + j : ℕ) : ℚ) := by exact_mod_cast h1
    simp only [Function.comp]
    rw [if_pos hc]
    push_cast
    ring

/-- C8: foo returns an array of length n whose entry at every index i < n
is a[i] + b[i] when a[i] > 100 and a[i] - b[i] otherwise, and on
a = b = [0, ..., 127] it returns 101 zeros followed by 202, 204, ..., 254,
the notebook's reference array. -/
theorem foo_spec (n : ℕ) (a b : ℕ → ℚ) :
    (foo n a b).length = n ∧
      (∀ i, i < n →
        (foo n a b)[i]? = some (if a i > 100 then a i + b i else a i - b i)) ∧
      foo 128 (fun i => (i : ℚ)) (fun i => (i : ℚ)) =
        List.replicate 101 0 ++
          (List.range 27).map (fun j : ℕ => (202 : ℚ) + 2 * (j : ℚ)) := by
  refine ⟨by simp [foo], ?_, foo_reference_eval⟩
  intro i h
  simp [foo, List.getElem?_map, List.getElem?_range h]

/-- The loop nest the TVM-compiled module built from foo executes (the
lowered body printed in src/tvm/tvm_misc_op_hyrid_script.ipynb cell 14:
for (i, 0, 128) { if (a(i) > 100f) c(i) = a(i) + b(i) else
c(i) = a(i) - b(i) }), writing element by element into the preallocated
zero buffer ndc of cell 15. -/
def fooCompiled (a b : ℕ → ℚ) : List ℚ :=
  (List.range 128).foldl
    (fun c i => c.set i (if a i > 100 then a i + b i else a i - b i))
    (List.replicate 128 0)

/-- Writing f i into slot i for each i below n fills the first n slots of
the buffer with f and leaves the rest. -/
theorem foldl_set_range (f : ℕ → ℚ) (c0 : List ℚ) :
    ∀ n, n ≤ c0.length →
      (List.range n).foldl (fun c i => c.set i (f i)) c0 =
        (List.range n).map f ++ c0.drop n := by
  intro n
  induction n with
  | zero => intro _; simp
  | succ n ih =>
    intro h
    have hn : n < c0.length := h
    rw [List.range_succ, List.foldl_append, ih (le_of_lt hn), List.foldl_cons, List.foldl_nil,
      List.set_append_right _ _ (by simp), List.map_append, List.append_assoc]
    congr 1
    simp only [List.length_map, List.length_range, Nat.sub_self]
    rw [List.drop_eq_getElem_cons hn, List.set_cons_zero]
    rfl

/-- C9: on every pair of input arrays the compiled module's loop nest and
the software-emulation semantics of foo produce the same output array: the
two execution modes of the hybrid-script function are observationally
equivalent. -/
theorem foo_modes_agree (a b : ℕ → ℚ) : fooCompiled a b = foo 128 a b := by
  have h := foldl_set_range (fun i => if a i > 100 then a i + b i else a i - b i)
    (List.replicate 128 0) 128 (by simp)
  simp only [List.drop_replicate, Nat.sub_self, List.replicate_zero, List.append_nil] at h
  exact h
